import Mathlib

/-
  Verification of the artist-search strategy chain of plex-mcp
  (src/plex_mcp/sections/artist_search_strategies.py).

  The Python module is embedded shallowly: the catalog collaborators
  (music section, server) are records of query functions returning
  Except values, catalog exceptions are an explicit error type, and the
  list of catalog calls issued by a strategy is returned alongside the
  result so that frame and limit properties can be stated.
-/

namespace PlexMcp

/-! ## Data model -/

/-- A catalog track, opaque to the core except for its title and its
direct artist attribution (grandparentTitle, possibly absent). -/
structure Track where
  title : String
  grandparentTitle : Option String
  ratingKey : Nat
deriving DecidableEq, Repr

/-- An entry returned by the broad server search; `type` is `none` when
the entry has no type attribute. -/
structure CatalogEntry where
  type : Option String
  title : String
deriving DecidableEq, Repr

/-- Errors raised by catalog calls: BadRequest, NotFound, or any other
error class (tagged with a code to distinguish distinct errors). -/
inductive CatalogError where
  | badRequest : CatalogError
  | notFound : CatalogError
  | other : Nat → CatalogError
deriving DecidableEq, Repr

/-- The result shape produced by every strategy and by the context. -/
structure SearchResult where
  success : Bool
  tracks : List Track
  matched_artists : List String
deriving DecidableEq, Repr

/-- A record of one catalog call issued by a strategy: a section
searchTracks call with an artist.title filter, a section searchTracks
call with a title argument, or a server-wide search. -/
inductive CatalogCall where
  | sectionFilterArtist : String → Nat → CatalogCall
  | sectionTitle : String → Nat → CatalogCall
  | serverSearch : String → Nat → CatalogCall
deriving DecidableEq, Repr

/-- Decidable equality for Except values, so that concrete witnesses
can be checked by evaluation. -/
instance {ε α : Type} [DecidableEq ε] [DecidableEq α] :
    DecidableEq (Except ε α) := fun a b =>
  match a, b with
  | .ok x, .ok y => decidable_of_iff (x = y) (by simp)
  | .error x, .error y => decidable_of_iff (x = y) (by simp)
  | .ok _, .error _ => isFalse (by simp)
  | .error _, .ok _ => isFalse (by simp)

/-- The music section collaborator: both shapes of searchTracks calls.
Each call either returns a track list or raises a catalog error. -/
structure MusicSection where
  searchTracksFilterArtist : String → Nat → Except CatalogError (List Track)
  searchTracksTitle : String → Nat → Except CatalogError (List Track)

/-- The Plex server collaborator with its global search call. -/
structure PlexServer where
  search : String → Nat → Except CatalogError (List CatalogEntry)

/-! ## Name normalization (normalize_artist_name) -/

/-- Modelled from the source call unicodedata.normalize("NFKD", name):
a character-wise compatibility decomposition over a finite table
covering the characters the module manipulates (the twelve space
variants, whose NFKD image is an ASCII space, and a sample of accented
and compatibility characters); characters outside the table decompose
to themselves, and canonical reordering of combining marks is not
modelled. -/
def nfkdTable : List (Char × List Char) :=
  [(' ', [' ']),
   (' ', [' ']),
   (' ', [' ']),
   (' ', [' ']),
   (' ', [' ']),
   (' ', [' ']),
   (' ', [' ']),
   (' ', [' ']),
   (' ', [' ']),
   (' ', [' ']),
   (' ', [' ']),
   (' ', [' ']),
   ('é', ['e', '́']),
   ('è', ['e', '̀']),
   ('ö', ['o', '̈']),
   ('Å', ['A', '̊']),
   ('ﬁ', ['f', 'i'])]

/-- Decomposition of a single character under the modelled NFKD. -/
def nfkdChar (c : Char) : List Char :=
  match nfkdTable.find? (fun p => p.1 == c) with
  | some p => p.2
  | none => [c]

/-- Modelled NFKD on a character list. -/
def nfkdList (l : List Char) : List Char :=
  l.flatMap nfkdChar

/-- The six dash-like characters replaced by the source, in source
order: U+2010, U+2013, U+2014, U+2212, U+2012, U+2015. -/
def dash_variants : List Char :=
  ['‐', '–', '—', '−', '‒', '―']

/-- The twelve space-like characters replaced by the source. -/
def space_variants : List Char :=
  [' ', ' ', ' ', ' ', ' ', ' ',
   ' ', ' ', ' ', ' ', ' ', ' ']

/-- Python str.replace for a single-character pattern: replace every
occurrence of old by new. -/
def replaceChar (old new : Char) (l : List Char) : List Char :=
  l.map fun c => if c = old then new else c

/-- The source loop replacing each dash variant by an ASCII hyphen. -/
def replaceDashes (l : List Char) : List Char :=
  dash_variants.foldl (fun acc d => replaceChar d '-' acc) l

/-- The source loop replacing each space variant by an ASCII space. -/
def replaceSpaces (l : List Char) : List Char :=
  space_variants.foldl (fun acc s => replaceChar s ' ' acc) l

/-- The whitespace characters matched by a Python regex backslash-s on
str input and stripped by str.strip (CPython str.isspace set). -/
def pyWhitespace : List Char :=
  ['\u0009', '\u000a', '\u000b', '\u000c', '\u000d', ' ',
   '\u001c', '\u001d', '\u001e', '\u001f', '\u0085', ' ',
   ' ', ' ', ' ', ' ', ' ', ' ',
   ' ', ' ', ' ', ' ', ' ', ' ',
   ' ', ' ', ' ', ' ', '　']

/-- Whether a character is Python whitespace. -/
def pyIsSpace (c : Char) : Bool :=
  pyWhitespace.contains c

/-- Models re.sub of one-or-more-whitespace by a single space: each
maximal run of whitespace characters becomes one ASCII space. The flag
records whether the previous character was part of a whitespace run. -/
def collapseWsAux : List Char → Bool → List Char
  | [], _ => []
  | c :: rest, prevSpace =>
    if pyIsSpace c then
      if prevSpace then collapseWsAux rest true
      else ' ' :: collapseWsAux rest true
    else c :: collapseWsAux rest false

/-- Collapse whitespace runs, starting outside a run. -/
def collapseWs (l : List Char) : List Char :=
  collapseWsAux l false

/-- Drop trailing Python whitespace (the right half of str.strip). -/
def dropTrailWs : List Char → List Char
  | [] => []
  | c :: rest =>
    match dropTrailWs rest with
    | [] => if pyIsSpace c then [] else [c]
    | r => c :: r

/-- Python str.strip: drop leading and trailing whitespace. -/
def stripWs (l : List Char) : List Char :=
  dropTrailWs (l.dropWhile pyIsSpace)

/-- Embedding of normalize_artist_name: NFKD, dash replacement, space
replacement, whitespace collapsing, strip. -/
def normalize_artist_name (name : String) : String :=
  let normalized := nfkdList name.data
  let dashed := replaceDashes normalized
  let spaced := replaceSpaces dashed
  String.mk (stripWs (collapseWs spaced))


/-- Modelled from the source calls to str.lower: character-wise ASCII
lowercasing, the fragment of Python str.lower exercised here. -/
def pyLower (s : String) : String :=
  String.mk (s.data.map Char.toLower)

/-! ## Shared result helpers -/

/-- The canonical failure result returned by every failing path. -/
def failureResult : SearchResult :=
  { success := false, tracks := [], matched_artists := [] }

/-- Python truthiness of an optional string attribute: false for a
missing attribute and for the empty string. -/
def truthyStr : Option String → Bool
  | none => false
  | some s => s ≠ ""

/-! ## ExactMatchStrategy -/

namespace ExactMatchStrategy

/-- Embedding of ExactMatchStrategy.search_tracks. The second component
is the list of catalog calls issued. BadRequest and NotFound from the
call are suppressed into the failure result; other errors propagate. -/
def search_tracks (music_section : MusicSection) (artist : String)
    (limit : Nat) : Except CatalogError SearchResult × List CatalogCall :=
  let call := CatalogCall.sectionFilterArtist artist limit
  match music_section.searchTracksFilterArtist artist limit with
  | .error .badRequest => (.ok failureResult, [call])
  | .error .notFound => (.ok failureResult, [call])
  | .error (.other code) => (.error (.other code), [call])
  | .ok tracks =>
    if tracks.isEmpty then (.ok failureResult, [call])
    else (.ok { success := true, tracks := tracks,
                matched_artists := [artist] }, [call])

end ExactMatchStrategy

/-! ## NormalizedMatchStrategy -/

namespace NormalizedMatchStrategy

/-- Embedding of NormalizedMatchStrategy.search_tracks: only queries
the catalog when the normalized name differs from the input. -/
def search_tracks (music_section : MusicSection) (artist : String)
    (limit : Nat) : Except CatalogError SearchResult × List CatalogCall :=
  let normalized_artist := normalize_artist_name artist
  if normalized_artist ≠ artist then
    let call := CatalogCall.sectionFilterArtist normalized_artist limit
    match music_section.searchTracksFilterArtist normalized_artist limit with
    | .error .badRequest => (.ok failureResult, [call])
    | .error .notFound => (.ok failureResult, [call])
    | .error (.other code) => (.error (.other code), [call])
    | .ok tracks =>
      if tracks.isEmpty then (.ok failureResult, [call])
      else (.ok { success := true, tracks := tracks,
                  matched_artists := [normalized_artist] }, [call])
  else (.ok failureResult, [])

end NormalizedMatchStrategy

/-! ## GlobalSearchStrategy -/

namespace GlobalSearchStrategy

/-- The candidate filter of the list comprehension: an artist-type
entry with a truthy title matching the query case-insensitively,
directly or after normalization. -/
def entryMatches (artist : String) (item : CatalogEntry) : Bool :=
  item.type == some "artist" && item.title ≠ "" &&
    (pyLower item.title == pyLower artist ||
      pyLower (normalize_artist_name item.title) ==
        pyLower (normalize_artist_name artist))

/-- The list comprehension selecting the titles of the matching
candidates, in the order returned by the broad search. -/
def matchingArtistTitles (global_results : List CatalogEntry)
    (artist : String) : List String :=
  (global_results.filter (entryMatches artist)).map
    (fun item => item.title)

/-- Embedding of GlobalSearchStrategy.search_tracks: broad server
search capped at 50, then a track query for the first matching
candidate title, both inside one suppression scope. -/
def search_tracks (server : PlexServer) (music_section : MusicSection)
    (artist : String) (limit : Nat) :
    Except CatalogError SearchResult × List CatalogCall :=
  let broadCall := CatalogCall.serverSearch artist 50
  match server.search artist 50 with
  | .error .badRequest => (.ok failureResult, [broadCall])
  | .error .notFound => (.ok failureResult, [broadCall])
  | .error (.other code) => (.error (.other code), [broadCall])
  | .ok global_results =>
    match matchingArtistTitles global_results artist with
    | [] => (.ok failureResult, [broadCall])
    | artist_name :: _ =>
      let trackCall := CatalogCall.sectionFilterArtist artist_name limit
      match music_section.searchTracksFilterArtist artist_name limit with
      | .error .badRequest => (.ok failureResult, [broadCall, trackCall])
      | .error .notFound => (.ok failureResult, [broadCall, trackCall])
      | .error (.other code) => (.error (.other code), [broadCall, trackCall])
      | .ok tracks =>
        if tracks.isEmpty then (.ok failureResult, [broadCall, trackCall])
        else (.ok { success := true, tracks := tracks,
                    matched_artists := [artist_name] },
              [broadCall, trackCall])

end GlobalSearchStrategy

/-! ## FuzzySearchStrategy -/

namespace FuzzySearchStrategy

/-- The artist attribution string of a track: the value read by the
loop once the truthiness guard has passed (empty when absent). -/
def trackArtist (track : Track) : String :=
  track.grandparentTitle.getD ""

/-- Whether a track passes the fuzzy filter: truthy artist attribution
that matches the query case-insensitively, directly or normalized. -/
def fuzzyCond (artist : String) (track : Track) : Bool :=
  truthyStr track.grandparentTitle &&
    (pyLower (trackArtist track) == pyLower artist ||
      pyLower (normalize_artist_name (trackArtist track)) ==
        pyLower (normalize_artist_name artist))

/-- Adding an element to a Python set, represented by its insertion
history of distinct elements: a no-op when already present. -/
def addSet (l : List String) (s : String) : List String :=
  if s ∈ l then l else l ++ [s]

/-- The filtering loop of the fuzzy strategy: accumulates the matching
tracks in order and the set of their artist attributions. -/
def fuzzyScanAux (artist : String) (mt : List Track) (ma : List String) :
    List Track → List Track × List String
  | [] => (mt, ma)
  | t :: ts =>
    if fuzzyCond artist t then
      fuzzyScanAux artist (mt ++ [t]) (addSet ma (trackArtist t)) ts
    else fuzzyScanAux artist mt ma ts

/-- Embedding of FuzzySearchStrategy.search_tracks. The matched artists
are accumulated in a Python set, whose iteration order when converted
back to a list depends on the process hash seed; that enumeration is
modelled by the setList parameter, which every actual execution
instantiates with some permutation of the distinct elements. -/
def search_tracks (setList : List String → List String)
    (music_section : MusicSection) (artist : String) (limit : Nat) :
    Except CatalogError SearchResult × List CatalogCall :=
  let call := CatalogCall.sectionTitle artist limit
  match music_section.searchTracksTitle artist limit with
  | .error .badRequest => (.ok failureResult, [call])
  | .error .notFound => (.ok failureResult, [call])
  | .error (.other code) => (.error (.other code), [call])
  | .ok tracks =>
    if tracks.isEmpty then (.ok failureResult, [call])
    else
      let scan := fuzzyScanAux artist [] [] tracks
      if scan.1.isEmpty then (.ok failureResult, [call])
      else (.ok { success := true, tracks := scan.1,
                  matched_artists := setList scan.2 }, [call])

end FuzzySearchStrategy

/-- A valid model of Python list-of-set enumeration: on any duplicate
free insertion history it returns some permutation of the elements. -/
def ValidSetList (setList : List String → List String) : Prop :=
  ∀ l : List String, l.Nodup → List.Perm (setList l) l

/-! ## ArtistSearchContext -/

/-- The common shape of the four strategy operations after binding
their constructor arguments. -/
abbrev StrategyFn :=
  MusicSection → String → Nat →
    Except CatalogError SearchResult × List CatalogCall

namespace ArtistSearchContext

/-- The strategy list built by the context constructor, in source
order: Exact, Normalized, GlobalSearch, Fuzzy. -/
def strategies (setList : List String → List String)
    (server : PlexServer) : List StrategyFn :=
  [ExactMatchStrategy.search_tracks,
   NormalizedMatchStrategy.search_tracks,
   GlobalSearchStrategy.search_tracks server,
   FuzzySearchStrategy.search_tracks setList]

/-- The strategy loop: run each strategy in order, return the first
successful result; a propagating error aborts the loop; when all
strategies fail return the canonical failure result. -/
def runStrategies : List StrategyFn → MusicSection → String → Nat →
    Except CatalogError SearchResult × List CatalogCall
  | [], _, _, _ => (.ok failureResult, [])
  | s :: rest, music_section, artist, limit =>
    match s music_section artist limit with
    | (.ok r, calls) =>
      if r.success then (.ok r, calls)
      else
        let next := runStrategies rest music_section artist limit
        (next.1, calls ++ next.2)
    | (.error e, calls) => (.error e, calls)

/-- Embedding of ArtistSearchContext.search_tracks_by_artist. -/
def search_tracks_by_artist (setList : List String → List String)
    (server : PlexServer) (music_section : MusicSection)
    (artist : String) (limit : Nat) :
    Except CatalogError SearchResult × List CatalogCall :=
  runStrategies (strategies setList server) music_section artist limit

end ArtistSearchContext

/-! ## Derived definitions used by the statements -/

namespace FuzzySearchStrategy

/-- First-occurrence deduplication: the insertion history of distinct
elements of a Python set built by adding the elements in order. -/
def dedupFirst (l : List String) : List String :=
  l.foldl addSet []

end FuzzySearchStrategy

/-- The cumulative effect on one character of the sequential dash
replacements of the source loop. -/
def dashCanon (c : Char) : Char :=
  dash_variants.foldl (fun x d => if x = d then '-' else x) c

/-- The cumulative effect on one character of the sequential space
replacements of the source loop. -/
def spaceCanon (c : Char) : Char :=
  space_variants.foldl (fun x s => if x = s then ' ' else x) c

/-- A character left unchanged by every stage of the normalizer. -/
def charFixed (c : Char) : Prop :=
  nfkdChar c = [c] ∧ c ∉ dash_variants ∧ c ∉ space_variants ∧
    (pyIsSpace c = true → c = ' ')

/-- No two adjacent ASCII spaces anywhere in the list. -/
def noDoubleSpace : List Char → Prop
  | c :: d :: rest => ¬(c = ' ' ∧ d = ' ') ∧ noDoubleSpace (d :: rest)
  | _ => True

/-- The first character, if any, is not Python whitespace. -/
def noLeadSpace : List Char → Prop
  | [] => True
  | c :: _ => pyIsSpace c = false

/-- The last character, if any, is not Python whitespace. -/
def noTrailSpace : List Char → Prop
  | [] => True
  | [c] => pyIsSpace c = false
  | _ :: rest => noTrailSpace rest

/-- The shape every normalizer output has; a character list of this
shape is a fixed point of the whole normalizer pipeline. -/
def NormalizedShape (l : List Char) : Prop :=
  (∀ c ∈ l, charFixed c) ∧ noDoubleSpace l ∧ noLeadSpace l ∧ noTrailSpace l

/-- The result invariant stated by the spec: success holds exactly when
both tracks and matched artists are non-empty, and a failure carries
empty tracks and empty matched artists. -/
def ResultInvariant (r : SearchResult) : Prop :=
  (r.success = true ↔ (r.tracks ≠ [] ∧ r.matched_artists ≠ [])) ∧
  (r.success = false → (r.tracks = [] ∧ r.matched_artists = []))

/-! ## Concrete fixtures used by witnesses and counterexamples -/

/-- A Queen track with a clean attribution. -/
def trackQueen : Track :=
  { title := "Bohemian Rhapsody", grandparentTitle := some "Queen",
    ratingKey := 1 }

/-- A Static-X track, attributed with the ASCII hyphen spelling. -/
def trackStaticX : Track :=
  { title := "Push It", grandparentTitle := some "Static-X",
    ratingKey := 2 }

/-- A track attributed to an upper-cased Queen spelling. -/
def trackQueenUpper : Track :=
  { title := "Queen", grandparentTitle := some "QUEEN", ratingKey := 3 }

/-- A track attributed to a lower-cased Queen spelling. -/
def trackQueenLower : Track :=
  { title := "Queen II", grandparentTitle := some "queen", ratingKey := 4 }

/-- A section holding one Queen track under the exact artist filter. -/
def msQueen : MusicSection :=
  { searchTracksFilterArtist := fun name _ =>
      if name = "Queen" then .ok [trackQueen] else .ok []
    searchTracksTitle := fun _ _ => .ok [] }

/-- A section where only the ASCII-hyphen spelling Static-X has
tracks under the artist filter. -/
def msStaticX : MusicSection :=
  { searchTracksFilterArtist := fun name _ =>
      if name = "Static-X" then .ok [trackStaticX] else .ok []
    searchTracksTitle := fun _ _ => .ok [] }

/-- A section whose filter search always raises BadRequest. -/
def msBadRequest : MusicSection :=
  { searchTracksFilterArtist := fun _ _ => .error .badRequest
    searchTracksTitle := fun _ _ => .ok [] }

/-- A section whose filter search raises an unrecognized error. -/
def msOtherError : MusicSection :=
  { searchTracksFilterArtist := fun _ _ => .error (.other 7)
    searchTracksTitle := fun _ _ => .ok [] }

/-- A section for the fuzzy probe: the title search returns two Queen
tracks with differently cased attributions and nothing matches the
artist filter. -/
def msFuzzyQueen : MusicSection :=
  { searchTracksFilterArtist := fun _ _ => .ok []
    searchTracksTitle := fun _ _ => .ok [trackQueenUpper, trackQueenLower] }

/-- A section that finds nothing anywhere. -/
def msEmpty : MusicSection :=
  { searchTracksFilterArtist := fun _ _ => .ok []
    searchTracksTitle := fun _ _ => .ok [] }

/-- A server whose broad search finds nothing. -/
def srvEmpty : PlexServer :=
  { search := fun _ _ => .ok [] }

/-- A server knowing one artist entry whose title carries a Unicode
hyphen U+2010. -/
def srvStaticX : PlexServer :=
  { search := fun _ _ =>
      .ok [{ type := some "artist", title := "Static‐X" }] }

/-- A track attributed to the Unicode-hyphen spelling of Static-X. -/
def trackStaticXUnicode : Track :=
  { title := "The Only", grandparentTitle := some "Static‐X",
    ratingKey := 5 }

/-- A section holding one track under the Unicode-hyphen artist filter
only. -/
def msStaticXUnicode : MusicSection :=
  { searchTracksFilterArtist := fun name _ =>
      if name = "Static‐X" then .ok [trackStaticXUnicode] else .ok []
    searchTracksTitle := fun _ _ => .ok [] }

/-- The identity enumeration of a Python set, one admissible iteration
order. -/
def idSetList : List String → List String :=
  fun l => l

/-- The reversing enumeration of a Python set, another admissible
iteration order. -/
def revSetList : List String → List String :=
  fun l => l.reverse

/-! ## Lemmas about the fuzzy accumulation loop -/

namespace FuzzySearchStrategy

theorem addSet_nodup {ma : List String} {s : String} (h : ma.Nodup) :
    (addSet ma s).Nodup := by
  unfold addSet
  split
  · exact h
  · next hs => simp [List.nodup_append, h, hs]

theorem foldl_addSet_nodup (l : List String) :
    ∀ ma : List String, ma.Nodup → (l.foldl addSet ma).Nodup := by
  induction l with
  | nil => intro ma h; exact h
  | cons x xs ih => intro ma h; exact ih _ (addSet_nodup h)

theorem addSet_length (ma : List String) (s : String) :
    ma.length ≤ (addSet ma s).length := by
  unfold addSet; split <;> simp

theorem foldl_addSet_length (l : List String) :
    ∀ ma : List String, ma.length ≤ (l.foldl addSet ma).length := by
  induction l with
  | nil => intro ma; simp
  | cons x xs ih =>
    intro ma
    exact le_trans (addSet_length ma x) (ih (addSet ma x))

theorem dedupFirst_nodup (l : List String) : (dedupFirst l).Nodup :=
  foldl_addSet_nodup l [] List.nodup_nil

theorem dedupFirst_ne_nil {l : List String} (h : l ≠ []) :
    dedupFirst l ≠ [] := by
  cases l with
  | nil => exact absurd rfl h
  | cons x xs =>
    have hlen : (1 : Nat) ≤ (dedupFirst (x :: xs)).length := by
      have hx : dedupFirst (x :: xs) = xs.foldl addSet [x] := by
        simp [dedupFirst, addSet]
      rw [hx]
      simpa using foldl_addSet_length xs [x]
    intro hnil
    rw [hnil] at hlen
    simp at hlen

theorem fuzzyScanAux_fst (artist : String) :
    ∀ (ts : List Track) (mt : List Track) (ma : List String),
      (fuzzyScanAux artist mt ma ts).1 =
        mt ++ ts.filter (fuzzyCond artist) := by
  intro ts
  induction ts with
  | nil => intro mt ma; simp [fuzzyScanAux]
  | cons t ts ih =>
    intro mt ma
    by_cases hc : fuzzyCond artist t
    · simp [fuzzyScanAux, hc, ih, List.filter_cons]
    · simp [fuzzyScanAux, hc, ih, List.filter_cons]

theorem fuzzyScanAux_snd (artist : String) :
    ∀ (ts : List Track) (mt : List Track) (ma : List String),
      (fuzzyScanAux artist mt ma ts).2 =
        ((ts.filter (fuzzyCond artist)).map trackArtist).foldl addSet ma := by
  intro ts
  induction ts with
  | nil => intro mt ma; simp [fuzzyScanAux]
  | cons t ts ih =>
    intro mt ma
    by_cases hc : fuzzyCond artist t
    · simp [fuzzyScanAux, hc, ih, List.filter_cons]
    · simp [fuzzyScanAux, hc, ih, List.filter_cons]

/-- The success shape of the fuzzy strategy: the retained tracks are
the filtered catalog response and the matched artists are the chosen
enumeration of the first-occurrence set of their attributions. -/
theorem search_tracks_ok_shape
    (setList : List String → List String) (music_section : MusicSection)
    (artist : String) (limit : Nat) (r : SearchResult)
    (calls : List CatalogCall)
    (h : search_tracks setList music_section artist limit = (.ok r, calls))
    (hs : r.success = true) :
    ∃ tracks, music_section.searchTracksTitle artist limit = .ok tracks ∧
      r.tracks = tracks.filter (fuzzyCond artist) ∧
      r.tracks ≠ [] ∧
      r.matched_artists = setList (dedupFirst (r.tracks.map trackArtist)) := by
  unfold search_tracks at h
  cases hcall : music_section.searchTracksTitle artist limit with
  | error e =>
    cases e <;> simp [hcall] at h
    all_goals
      obtain ⟨hr, -⟩ := h
      rw [← hr] at hs
      simp [failureResult] at hs
  | ok tracks =>
    rw [hcall] at h
    by_cases hemp : tracks = []
    · simp [hemp] at h
      obtain ⟨hr, -⟩ := h
      rw [← hr] at hs
      simp [failureResult] at hs
    · simp [hemp] at h
      by_cases hscan : (fuzzyScanAux artist [] [] tracks).1 = []
      · simp [hscan] at h
        obtain ⟨hr, -⟩ := h
        rw [← hr] at hs
        simp [failureResult] at hs
      · simp [hscan] at h
        obtain ⟨hr, -⟩ := h
        refine ⟨tracks, rfl, ?_, ?_, ?_⟩
        · rw [← hr]
          simpa using fuzzyScanAux_fst artist tracks [] []
        · rw [← hr]
          simpa using hscan
        · rw [← hr]
          have h2 := fuzzyScanAux_snd artist tracks [] []
          have h1 := fuzzyScanAux_fst artist tracks [] []
          simp only [List.nil_append] at h1 h2
          simp [h2, h1, dedupFirst]

end FuzzySearchStrategy

/-! ## Generic helper lemmas -/

theorem failureResult_invariant : ResultInvariant failureResult := by
  constructor
  · simp [failureResult]
  · intro _; simp [failureResult]

theorem valid_idSetList : ValidSetList idSetList :=
  fun l _ => List.Perm.refl l

theorem valid_revSetList : ValidSetList revSetList :=
  fun l _ => l.reverse_perm

theorem valid_setList_ne_nil {setList : List String → List String}
    (hset : ValidSetList setList) {l : List String} (hn : l.Nodup)
    (hne : l ≠ []) : setList l ≠ [] := by
  intro h0
  have hp := hset l hn
  rw [h0] at hp
  have hlen := hp.length_eq
  simp at hlen
  exact hne (List.length_eq_zero.mp hlen.symm)

/-! ## C2: result invariant of every strategy -/

/-- C2: for every strategy (Exact, Normalized, GlobalSearch, Fuzzy) and
every input, a returned result has success equal to the conjunction of
tracks being non-empty and matched artists being non-empty, and a
failure carries empty tracks and empty matched artists. The fuzzy
strategy may use any admissible set enumeration. -/
theorem strategies_result_invariant
    (setList : List String → List String) (server : PlexServer)
    (music_section : MusicSection) (artist : String) (limit : Nat)
    (hset : ValidSetList setList) :
    (∀ r calls,
      ExactMatchStrategy.search_tracks music_section artist limit =
        (.ok r, calls) → ResultInvariant r) ∧
    (∀ r calls,
      NormalizedMatchStrategy.search_tracks music_section artist limit =
        (.ok r, calls) → ResultInvariant r) ∧
    (∀ r calls,
      GlobalSearchStrategy.search_tracks server music_section artist limit =
        (.ok r, calls) → ResultInvariant r) ∧
    (∀ r calls,
      FuzzySearchStrategy.search_tracks setList music_section artist limit =
        (.ok r, calls) → ResultInvariant r) := by
  refine ⟨?_, ?_, ?_, ?_⟩
  · intro r calls h
    unfold ExactMatchStrategy.search_tracks at h
    cases hcall : music_section.searchTracksFilterArtist artist limit with
    | error e =>
      cases e <;> simp [hcall] at h <;>
        exact h.1 ▸ failureResult_invariant
    | ok tracks =>
      rw [hcall] at h
      by_cases hemp : tracks = []
      · simp [hemp] at h
        exact h.1 ▸ failureResult_invariant
      · simp [hemp] at h
        rw [← h.1]
        exact ⟨by simp [hemp], by simp⟩
  · intro r calls h
    unfold NormalizedMatchStrategy.search_tracks at h
    by_cases hne : normalize_artist_name artist ≠ artist
    · rw [if_pos hne] at h
      cases hcall : music_section.searchTracksFilterArtist
          (normalize_artist_name artist) limit with
      | error e =>
        cases e <;> simp [hcall] at h <;>
          exact h.1 ▸ failureResult_invariant
      | ok tracks =>
        rw [hcall] at h
        by_cases hemp : tracks = []
        · simp [hemp] at h
          exact h.1 ▸ failureResult_invariant
        · simp [hemp] at h
          rw [← h.1]
          exact ⟨by simp [hemp], by simp⟩
    · rw [if_neg hne] at h
      simp at h
      exact h.1 ▸ failureResult_invariant
  · intro r calls h
    unfold GlobalSearchStrategy.search_tracks at h
    cases hcall : server.search artist 50 with
    | error e =>
      cases e <;> simp [hcall] at h <;>
        exact h.1 ▸ failureResult_invariant
    | ok entries =>
      rw [hcall] at h
      cases hmatch : GlobalSearchStrategy.matchingArtistTitles entries artist with
      | nil =>
        simp [hmatch] at h
        exact h.1 ▸ failureResult_invariant
      | cons name rest =>
        simp only [hmatch] at h
        cases hcall2 : music_section.searchTracksFilterArtist name limit with
        | error e =>
          cases e <;> simp [hcall2] at h <;>
            exact h.1 ▸ failureResult_invariant
        | ok tracks =>
          by_cases hemp : tracks = []
          · simp [hcall2, hemp] at h
            exact h.1 ▸ failureResult_invariant
          · simp [hcall2, hemp] at h
            rw [← h.1]
            exact ⟨by simp [hemp], by simp⟩
  · intro r calls h
    unfold FuzzySearchStrategy.search_tracks at h
    cases hcall : music_section.searchTracksTitle artist limit with
    | error e =>
      cases e <;> simp [hcall] at h <;>
        exact h.1 ▸ failureResult_invariant
    | ok tracks =>
      rw [hcall] at h
      by_cases hemp : tracks = []
      · simp [hemp] at h
        exact h.1 ▸ failureResult_invariant
      · simp [hemp] at h
        by_cases hscan : (FuzzySearchStrategy.fuzzyScanAux artist [] [] tracks).1 = []
        · simp [hscan] at h
          exact h.1 ▸ failureResult_invariant
        · simp [hscan] at h
          have hsnd := FuzzySearchStrategy.fuzzyScanAux_snd artist tracks [] []
          have hfst := FuzzySearchStrategy.fuzzyScanAux_fst artist tracks [] []
          simp only [List.nil_append] at hsnd hfst
          have hdedup :
              (FuzzySearchStrategy.fuzzyScanAux artist [] [] tracks).2 =
                FuzzySearchStrategy.dedupFirst
                  ((tracks.filter (FuzzySearchStrategy.fuzzyCond artist)).map
                    FuzzySearchStrategy.trackArtist) := by
            unfold FuzzySearchStrategy.dedupFirst
            exact hsnd
          have hfilter_ne :
              tracks.filter (FuzzySearchStrategy.fuzzyCond artist) ≠ [] := by
            rw [← hfst]; exact hscan
          have hmap_ne :
              (tracks.filter (FuzzySearchStrategy.fuzzyCond artist)).map
                FuzzySearchStrategy.trackArtist ≠ [] := by
            simpa using hfilter_ne
          have hma_ne :
              setList (FuzzySearchStrategy.fuzzyScanAux artist [] [] tracks).2 ≠
                [] := by
            rw [hdedup]
            exact valid_setList_ne_nil hset
              (FuzzySearchStrategy.dedupFirst_nodup _)
              (FuzzySearchStrategy.dedupFirst_ne_nil hmap_ne)
          rw [← h.1]
          exact ⟨by simp [hscan, hma_ne], by simp⟩

/-- Witness for C2: the invariant instantiated on a concrete catalog
where the exact strategy succeeds with one Queen track. -/
theorem strategies_result_invariant_witness :
    ResultInvariant
      { success := true, tracks := [trackQueen],
        matched_artists := ["Queen"] } :=
  (strategies_result_invariant idSetList srvEmpty msQueen "Queen" 5
      valid_idSetList).1
    { success := true, tracks := [trackQueen], matched_artists := ["Queen"] }
    [CatalogCall.sectionFilterArtist "Queen" 5] rfl

/-! ## C10: fuzzy retained tracks have truthy attribution -/

/-- C10: the fuzzy strategy never retains a track whose artist
attribution is missing or empty: in any success result every returned
track has a truthy grandparentTitle, for every query artist (including
the empty string) and every catalog response. -/
theorem fuzzy_truthy_attribution
    (setList : List String → List String) (music_section : MusicSection)
    (artist : String) (limit : Nat) (r : SearchResult)
    (calls : List CatalogCall)
    (h : FuzzySearchStrategy.search_tracks setList music_section artist
        limit = (.ok r, calls))
    (hs : r.success = true) :
    ∀ t ∈ r.tracks, truthyStr t.grandparentTitle = true := by
  obtain ⟨tracks, -, htracks, -, -⟩ :=
    FuzzySearchStrategy.search_tracks_ok_shape setList music_section artist
      limit r calls h hs
  intro t ht
  rw [htracks] at ht
  have hcond := List.of_mem_filter ht
  simp only [FuzzySearchStrategy.fuzzyCond, Bool.and_eq_true] at hcond
  exact hcond.1

/-- Witness for C10: instantiated on the concrete fuzzy catalog with
two differently cased Queen tracks. -/
theorem fuzzy_truthy_attribution_witness :
    truthyStr trackQueenUpper.grandparentTitle = true :=
  fuzzy_truthy_attribution idSetList msFuzzyQueen "Queen" 5
    { success := true, tracks := [trackQueenUpper, trackQueenLower],
      matched_artists := ["QUEEN", "queen"] }
    [CatalogCall.sectionTitle "Queen" 5] (by decide) rfl
    trackQueenUpper (by simp)

/-! ## C6: normalized strategy short-circuit -/

/-- C6: when the normalized artist name equals the input the normalized
strategy issues zero catalog calls and returns the failure result, and
it queries the catalog (exactly one filter call, for the normalized
name) only when the normalized form differs from the input. -/
theorem normalized_short_circuit (music_section : MusicSection)
    (artist : String) (limit : Nat) :
    (normalize_artist_name artist = artist →
      NormalizedMatchStrategy.search_tracks music_section artist limit =
        (.ok failureResult, [])) ∧
    (normalize_artist_name artist ≠ artist →
      (NormalizedMatchStrategy.search_tracks music_section artist
          limit).2 =
        [CatalogCall.sectionFilterArtist (normalize_artist_name artist)
          limit]) := by
  constructor
  · intro heq
    unfold NormalizedMatchStrategy.search_tracks
    simp [heq]
  · intro hne
    unfold NormalizedMatchStrategy.search_tracks
    rw [if_pos hne]
    cases hcall : music_section.searchTracksFilterArtist
        (normalize_artist_name artist) limit with
    | error e => cases e <;> simp [hcall]
    | ok tracks =>
      by_cases hemp : tracks = [] <;> simp [hcall, hemp]

/-- Witness for C6: on the already-normalized name Queen the strategy
returns the failure result with an empty call list. -/
theorem normalized_short_circuit_witness :
    NormalizedMatchStrategy.search_tracks msEmpty "Queen" 3 =
      (.ok failureResult, []) :=
  (normalized_short_circuit msEmpty "Queen" 3).1 (by decide)

/-! ## C8: the broad global search is capped at 50 -/

/-- C8: for every caller limit, the global strategy issues its broad
server search with the fixed cap 50, and the caller limit is used only
by the optional subsequent track query: the call trace is either just
the broad search or the broad search followed by one filter call with
the caller limit. -/
theorem global_broad_cap_fifty (server : PlexServer)
    (music_section : MusicSection) (artist : String) (limit : Nat) :
    (GlobalSearchStrategy.search_tracks server music_section artist
        limit).2 = [CatalogCall.serverSearch artist 50] ∨
    ∃ name,
      (GlobalSearchStrategy.search_tracks server music_section artist
          limit).2 =
        [CatalogCall.serverSearch artist 50,
          CatalogCall.sectionFilterArtist name limit] := by
  unfold GlobalSearchStrategy.search_tracks
  cases hcall : server.search artist 50 with
  | error e => cases e <;> simp [hcall]
  | ok entries =>
    cases hmatch : GlobalSearchStrategy.matchingArtistTitles entries artist with
    | nil => simp [hmatch]
    | cons name rest =>
      right
      refine ⟨name, ?_⟩
      simp only [hmatch]
      cases hcall2 : music_section.searchTracksFilterArtist name limit with
      | error e => cases e <;> simp [hcall2]
      | ok tracks =>
        by_cases hemp : tracks = [] <;> simp [hcall2, hemp]

/-! ## C1: the context runs strategies in fixed order, first success -/

/-- C1: the context invokes the four strategies in the order Exact,
Normalized, GlobalSearch, Fuzzy, returns the result of the first
strategy reporting success without invoking any later strategy (the
call trace is exactly the concatenation of the traces of the invoked
strategies), and when all four fail it returns the canonical failure
result. -/
theorem context_first_success
    (setList : List String → List String) (server : PlexServer)
    (music_section : MusicSection) (artist : String) (limit : Nat) :
    (∀ r c,
      ExactMatchStrategy.search_tracks music_section artist limit =
        (.ok r, c) →
      r.success = true →
      ArtistSearchContext.search_tracks_by_artist setList server
        music_section artist limit = (.ok r, c)) ∧
    (∀ r₁ c₁ r c,
      ExactMatchStrategy.search_tracks music_section artist limit =
        (.ok r₁, c₁) →
      r₁.success = false →
      NormalizedMatchStrategy.search_tracks music_section artist limit =
        (.ok r, c) →
      r.success = true →
      ArtistSearchContext.search_tracks_by_artist setList server
        music_section artist limit = (.ok r, c₁ ++ c)) ∧
    (∀ r₁ c₁ r₂ c₂ r c,
      ExactMatchStrategy.search_tracks music_section artist limit =
        (.ok r₁, c₁) →
      r₁.success = false →
      NormalizedMatchStrategy.search_tracks music_section artist limit =
        (.ok r₂, c₂) →
      r₂.success = false →
      GlobalSearchStrategy.search_tracks server music_section artist
        limit = (.ok r, c) →
      r.success = true →
      ArtistSearchContext.search_tracks_by_artist setList server
        music_section artist limit = (.ok r, c₁ ++ c₂ ++ c)) ∧
    (∀ r₁ c₁ r₂ c₂ r₃ c₃ r c,
      ExactMatchStrategy.search_tracks music_section artist limit =
        (.ok r₁, c₁) →
      r₁.success = false →
      NormalizedMatchStrategy.search_tracks music_section artist limit =
        (.ok r₂, c₂) →
      r₂.success = false →
      GlobalSearchStrategy.search_tracks server music_section artist
        limit = (.ok r₃, c₃) →
      r₃.success = false →
      FuzzySearchStrategy.search_tracks setList music_section artist
        limit = (.ok r, c) →
      r.success = true →
      ArtistSearchContext.search_tracks_by_artist setList server
        music_section artist limit = (.ok r, c₁ ++ c₂ ++ c₃ ++ c)) ∧
    (∀ r₁ c₁ r₂ c₂ r₃ c₃ r₄ c₄,
      ExactMatchStrategy.search_tracks music_section artist limit =
        (.ok r₁, c₁) →
      r₁.success = false →
      NormalizedMatchStrategy.search_tracks music_section artist limit =
        (.ok r₂, c₂) →
      r₂.success = false →
      GlobalSearchStrategy.search_tracks server music_section artist
        limit = (.ok r₃, c₃) →
      r₃.success = false →
      FuzzySearchStrategy.search_tracks setList music_section artist
        limit = (.ok r₄, c₄) →
      r₄.success = false →
      ArtistSearchContext.search_tracks_by_artist setList server
        music_section artist limit =
        (.ok failureResult, c₁ ++ c₂ ++ c₃ ++ c₄)) := by
  refine ⟨?_, ?_, ?_, ?_, ?_⟩
  · intro r c hE hs
    simp [ArtistSearchContext.search_tracks_by_artist,
      ArtistSearchContext.strategies, ArtistSearchContext.runStrategies,
      hE, hs]
  · intro r₁ c₁ r c hE hs₁ hN hs
    simp [ArtistSearchContext.search_tracks_by_artist,
      ArtistSearchContext.strategies, ArtistSearchContext.runStrategies,
      hE, hs₁, hN, hs]
  · intro r₁ c₁ r₂ c₂ r c hE hs₁ hN hs₂ hG hs
    simp [ArtistSearchContext.search_tracks_by_artist,
      ArtistSearchContext.strategies, ArtistSearchContext.runStrategies,
      hE, hs₁, hN, hs₂, hG, hs]
  · intro r₁ c₁ r₂ c₂ r₃ c₃ r c hE hs₁ hN hs₂ hG hs₃ hF hs
    simp [ArtistSearchContext.search_tracks_by_artist,
      ArtistSearchContext.strategies, ArtistSearchContext.runStrategies,
      hE, hs₁, hN, hs₂, hG, hs₃, hF, hs]
  · intro r₁ c₁ r₂ c₂ r₃ c₃ r₄ c₄ hE hs₁ hN hs₂ hG hs₃ hF hs₄
    simp [ArtistSearchContext.search_tracks_by_artist,
      ArtistSearchContext.strategies, ArtistSearchContext.runStrategies,
      hE, hs₁, hN, hs₂, hG, hs₃, hF, hs₄]

/-- Witness for C1: on a catalog where the exact query for the Unicode
spelling finds nothing but the normalized ASCII spelling has one track,
the chain returns the normalized success and the trace shows the exact
call followed by the normalized call. -/
theorem context_first_success_witness :
    ArtistSearchContext.search_tracks_by_artist idSetList srvEmpty
      msStaticX "Static‐X" 5 =
      (.ok { success := true, tracks := [trackStaticX],
             matched_artists := ["Static-X"] },
       [CatalogCall.sectionFilterArtist "Static‐X" 5,
        CatalogCall.sectionFilterArtist "Static-X" 5]) :=
  (context_first_success idSetList srvEmpty msStaticX "Static‐X" 5).2.1
    failureResult [CatalogCall.sectionFilterArtist "Static‐X" 5]
    { success := true, tracks := [trackStaticX],
      matched_artists := ["Static-X"] }
    [CatalogCall.sectionFilterArtist "Static-X" 5]
    (by decide) rfl (by decide) rfl

/-! ## C3: error isolation and propagation -/

theorem exact_error_other (music_section : MusicSection) (artist : String)
    (limit : Nat) (e : CatalogError) (calls : List CatalogCall)
    (h : ExactMatchStrategy.search_tracks music_section artist limit =
      (.error e, calls)) : ∃ code, e = CatalogError.other code := by
  unfold ExactMatchStrategy.search_tracks at h
  cases hcall : music_section.searchTracksFilterArtist artist limit with
  | error e' =>
    cases e' <;> simp [hcall] at h
    exact ⟨_, h.1.symm⟩
  | ok tracks =>
    rw [hcall] at h
    by_cases hemp : tracks = [] <;> simp [hemp] at h

theorem normalized_error_other (music_section : MusicSection)
    (artist : String) (limit : Nat) (e : CatalogError)
    (calls : List CatalogCall)
    (h : NormalizedMatchStrategy.search_tracks music_section artist limit =
      (.error e, calls)) : ∃ code, e = CatalogError.other code := by
  unfold NormalizedMatchStrategy.search_tracks at h
  by_cases hne : normalize_artist_name artist ≠ artist
  · rw [if_pos hne] at h
    cases hcall : music_section.searchTracksFilterArtist
        (normalize_artist_name artist) limit with
    | error e' =>
      cases e' <;> simp [hcall] at h
      exact ⟨_, h.1.symm⟩
    | ok tracks =>
      rw [hcall] at h
      by_cases hemp : tracks = [] <;> simp [hemp] at h
  · rw [if_neg hne] at h
    simp at h

theorem global_error_other (server : PlexServer)
    (music_section : MusicSection) (artist : String) (limit : Nat)
    (e : CatalogError) (calls : List CatalogCall)
    (h : GlobalSearchStrategy.search_tracks server music_section artist
      limit = (.error e, calls)) : ∃ code, e = CatalogError.other code := by
  unfold GlobalSearchStrategy.search_tracks at h
  cases hcall : server.search artist 50 with
  | error e' =>
    cases e' <;> simp [hcall] at h
    exact ⟨_, h.1.symm⟩
  | ok entries =>
    rw [hcall] at h
    cases hmatch : GlobalSearchStrategy.matchingArtistTitles entries artist with
    | nil => simp [hmatch] at h
    | cons name rest =>
      simp only [hmatch] at h
      cases hcall2 : music_section.searchTracksFilterArtist name limit with
      | error e' =>
        cases e' <;> simp [hcall2] at h
        exact ⟨_, h.1.symm⟩
      | ok tracks =>
        by_cases hemp : tracks = [] <;> simp [hcall2, hemp] at h

theorem fuzzy_error_other (setList : List String → List String)
    (music_section : MusicSection) (artist : String) (limit : Nat)
    (e : CatalogError) (calls : List CatalogCall)
    (h : FuzzySearchStrategy.search_tracks setList music_section artist
      limit = (.error e, calls)) : ∃ code, e = CatalogError.other code := by
  unfold FuzzySearchStrategy.search_tracks at h
  cases hcall : music_section.searchTracksTitle artist limit with
  | error e' =>
    cases e' <;> simp [hcall] at h
    exact ⟨_, h.1.symm⟩
  | ok tracks =>
    rw [hcall] at h
    by_cases hemp : tracks = []
    · simp [hemp] at h
    · simp [hemp] at h
      by_cases hscan :
          (FuzzySearchStrategy.fuzzyScanAux artist [] [] tracks).1 = [] <;>
        simp [hscan] at h

theorem runStrategies_error_other (music_section : MusicSection)
    (artist : String) (limit : Nat) :
    ∀ ss : List StrategyFn,
      (∀ s ∈ ss, ∀ e calls, s music_section artist limit =
        (.error e, calls) → ∃ code, e = CatalogError.other code) →
      ∀ e,
        (ArtistSearchContext.runStrategies ss music_section artist
          limit).1 = .error e →
        ∃ code, e = CatalogError.other code := by
  intro ss
  induction ss with
  | nil =>
    intro _ e h
    simp [ArtistSearchContext.runStrategies] at h
  | cons s rest ih =>
    intro hss e h
    rw [ArtistSearchContext.runStrategies] at h
    cases hs : s music_section artist limit with
    | mk res cs =>
      rw [hs] at h
      cases res with
      | error e' =>
        simp at h
        exact h ▸ hss s (List.mem_cons_self s rest) e' cs hs
      | ok r =>
        by_cases hr : r.success = true
        · simp [hr] at h
        · simp [hr] at h
          exact ih (fun s' hs' => hss s' (List.mem_cons_of_mem s hs')) e h

/-- C3: BadRequest and NotFound raised by a catalog call inside any
strategy are suppressed into the failure result so the chain continues,
while any other error class raised by a catalog call propagates out of
search_tracks_by_artist: the context can only ever propagate an
other-class error, and an other-class error from the first catalog call
is returned verbatim by the context. -/
theorem strategy_error_isolation
    (setList : List String → List String) (server : PlexServer)
    (music_section : MusicSection) (artist : String) (limit : Nat) :
    (∀ e, (e = CatalogError.badRequest ∨ e = CatalogError.notFound) →
      music_section.searchTracksFilterArtist artist limit = .error e →
      ExactMatchStrategy.search_tracks music_section artist limit =
        (.ok failureResult,
          [CatalogCall.sectionFilterArtist artist limit])) ∧
    (∀ e, (e = CatalogError.badRequest ∨ e = CatalogError.notFound) →
      music_section.searchTracksFilterArtist (normalize_artist_name artist)
        limit = .error e →
      ∃ calls,
        NormalizedMatchStrategy.search_tracks music_section artist limit =
          (.ok failureResult, calls)) ∧
    (∀ e, (e = CatalogError.badRequest ∨ e = CatalogError.notFound) →
      server.search artist 50 = .error e →
      GlobalSearchStrategy.search_tracks server music_section artist
        limit =
        (.ok failureResult, [CatalogCall.serverSearch artist 50])) ∧
    (∀ e entries name rest,
      (e = CatalogError.badRequest ∨ e = CatalogError.notFound) →
      server.search artist 50 = .ok entries →
      GlobalSearchStrategy.matchingArtistTitles entries artist =
        name :: rest →
      music_section.searchTracksFilterArtist name limit = .error e →
      GlobalSearchStrategy.search_tracks server music_section artist
        limit =
        (.ok failureResult,
          [CatalogCall.serverSearch artist 50,
            CatalogCall.sectionFilterArtist name limit])) ∧
    (∀ e, (e = CatalogError.badRequest ∨ e = CatalogError.notFound) →
      music_section.searchTracksTitle artist limit = .error e →
      FuzzySearchStrategy.search_tracks setList music_section artist
        limit =
        (.ok failureResult, [CatalogCall.sectionTitle artist limit])) ∧
    (∀ e calls,
      ArtistSearchContext.search_tracks_by_artist setList server
        music_section artist limit = (.error e, calls) →
      ∃ code, e = CatalogError.other code) ∧
    (∀ e c,
      ExactMatchStrategy.search_tracks music_section artist limit =
        (.error e, c) →
      ArtistSearchContext.search_tracks_by_artist setList server
        music_section artist limit = (.error e, c)) ∧
    (∀ r₁ c₁ e c,
      ExactMatchStrategy.search_tracks music_section artist limit =
        (.ok r₁, c₁) →
      r₁.success = false →
      NormalizedMatchStrategy.search_tracks music_section artist limit =
        (.error e, c) →
      ArtistSearchContext.search_tracks_by_artist setList server
        music_section artist limit = (.error e, c₁ ++ c)) ∧
    (∀ r₁ c₁ r₂ c₂ e c,
      ExactMatchStrategy.search_tracks music_section artist limit =
        (.ok r₁, c₁) →
      r₁.success = false →
      NormalizedMatchStrategy.search_tracks music_section artist limit =
        (.ok r₂, c₂) →
      r₂.success = false →
      GlobalSearchStrategy.search_tracks server music_section artist
        limit = (.error e, c) →
      ArtistSearchContext.search_tracks_by_artist setList server
        music_section artist limit = (.error e, c₁ ++ c₂ ++ c)) ∧
    (∀ r₁ c₁ r₂ c₂ r₃ c₃ e c,
      ExactMatchStrategy.search_tracks music_section artist limit =
        (.ok r₁, c₁) →
      r₁.success = false →
      NormalizedMatchStrategy.search_tracks music_section artist limit =
        (.ok r₂, c₂) →
      r₂.success = false →
      GlobalSearchStrategy.search_tracks server music_section artist
        limit = (.ok r₃, c₃) →
      r₃.success = false →
      FuzzySearchStrategy.search_tracks setList music_section artist
        limit = (.error e, c) →
      ArtistSearchContext.search_tracks_by_artist setList server
        music_section artist limit = (.error e, c₁ ++ c₂ ++ c₃ ++ c)) := by
  refine ⟨?_, ?_, ?_, ?_, ?_, ?_, ?_, ?_, ?_, ?_⟩
  · intro e he hcall
    unfold ExactMatchStrategy.search_tracks
    rcases he with he | he <;> subst he <;> simp [hcall]
  · intro e he hcall
    unfold NormalizedMatchStrategy.search_tracks
    by_cases hne : normalize_artist_name artist ≠ artist
    · rw [if_pos hne]
      rcases he with he | he <;> subst he <;> simp [hcall]
    · rw [if_neg hne]
      exact ⟨[], rfl⟩
  · intro e he hcall
    unfold GlobalSearchStrategy.search_tracks
    rcases he with he | he <;> subst he <;> simp [hcall]
  · intro e entries name rest he hcall hmatch hcall2
    unfold GlobalSearchStrategy.search_tracks
    rw [hcall]
    simp only [hmatch]
    rcases he with he | he <;> subst he <;> simp [hcall2]
  · intro e he hcall
    unfold FuzzySearchStrategy.search_tracks
    rcases he with he | he <;> subst he <;> simp [hcall]
  · intro e calls h
    have h1 :
        (ArtistSearchContext.runStrategies
          (ArtistSearchContext.strategies setList server) music_section
          artist limit).1 = .error e := by
      rw [ArtistSearchContext.search_tracks_by_artist] at h
      rw [h]
    refine runStrategies_error_other music_section artist limit _ ?_ e h1
    intro s hs e' calls' hcall
    simp only [ArtistSearchContext.strategies, List.mem_cons,
      List.mem_singleton, List.not_mem_nil, or_false] at hs
    rcases hs with hs | hs | hs | hs <;> subst hs
    · exact exact_error_other music_section artist limit e' calls' hcall
    · exact normalized_error_other music_section artist limit e' calls' hcall
    · exact global_error_other server music_section artist limit e' calls'
        hcall
    · exact fuzzy_error_other setList music_section artist limit e' calls'
        hcall
  · intro e c hE
    simp [ArtistSearchContext.search_tracks_by_artist,
      ArtistSearchContext.strategies, ArtistSearchContext.runStrategies, hE]
  · intro r₁ c₁ e c hE hs₁ hN
    simp [ArtistSearchContext.search_tracks_by_artist,
      ArtistSearchContext.strategies, ArtistSearchContext.runStrategies,
      hE, hs₁, hN]
  · intro r₁ c₁ r₂ c₂ e c hE hs₁ hN hs₂ hG
    simp [ArtistSearchContext.search_tracks_by_artist,
      ArtistSearchContext.strategies, ArtistSearchContext.runStrategies,
      hE, hs₁, hN, hs₂, hG]
  · intro r₁ c₁ r₂ c₂ r₃ c₃ e c hE hs₁ hN hs₂ hG hs₃ hF
    simp [ArtistSearchContext.search_tracks_by_artist,
      ArtistSearchContext.strategies, ArtistSearchContext.runStrategies,
      hE, hs₁, hN, hs₂, hG, hs₃, hF]

/-- Witness for C3: on a section whose filter call raises BadRequest
the exact strategy returns the failure result. -/
theorem strategy_error_isolation_witness :
    ExactMatchStrategy.search_tracks msBadRequest "Queen" 5 =
      (.ok failureResult, [CatalogCall.sectionFilterArtist "Queen" 5]) :=
  (strategy_error_isolation idSetList srvEmpty msBadRequest "Queen" 5).1
    CatalogError.badRequest (Or.inl rfl) rfl

/-! ## C7: the global strategy takes the first matching candidate -/

theorem head?_filter_eq_find? {α : Type} (p : α → Bool) :
    ∀ l : List α, (l.filter p).head? = l.find? p := by
  intro l
  induction l with
  | nil => simp
  | cons x xs ih =>
    by_cases hx : p x
    · simp [List.filter_cons, List.find?, hx]
    · simp [List.filter_cons, List.find?, hx, ih]

/-- C7: whenever the global strategy finds a matching artist-type
candidate, the selected candidate is the first matching one in the
order returned by the broad search (the head of the matching titles is
the find-first matching entry, with no reranking), and on success the
strategy queries tracks for exactly that candidate title and reports it
verbatim, with the catalog casing and diacritics, as the single matched
artist. -/
theorem global_first_candidate (server : PlexServer)
    (music_section : MusicSection) (artist : String) (limit : Nat) :
    (∀ entries : List CatalogEntry,
      (GlobalSearchStrategy.matchingArtistTitles entries artist).head? =
        (entries.find? (GlobalSearchStrategy.entryMatches artist)).map
          CatalogEntry.title) ∧
    (∀ entries name rest tracks,
      server.search artist 50 = .ok entries →
      GlobalSearchStrategy.matchingArtistTitles entries artist =
        name :: rest →
      music_section.searchTracksFilterArtist name limit = .ok tracks →
      tracks ≠ [] →
      GlobalSearchStrategy.search_tracks server music_section artist
        limit =
        (.ok { success := true, tracks := tracks,
               matched_artists := [name] },
          [CatalogCall.serverSearch artist 50,
            CatalogCall.sectionFilterArtist name limit])) := by
  constructor
  · intro entries
    unfold GlobalSearchStrategy.matchingArtistTitles
    rw [← head?_filter_eq_find? (GlobalSearchStrategy.entryMatches artist)]
    cases entries.filter (GlobalSearchStrategy.entryMatches artist) with
    | nil => rfl
    | cons a as => rfl
  · intro entries name rest tracks hcall hmatch hcall2 hne
    unfold GlobalSearchStrategy.search_tracks
    rw [hcall]
    simp only [hmatch]
    simp [hcall2, hne]

/-- Witness for C7: the query static-x matches the catalog entry titled
with a Unicode hyphen, and the strategy reports the catalog spelling,
not the query string. -/
theorem global_first_candidate_witness :
    GlobalSearchStrategy.search_tracks srvStaticX msStaticXUnicode
      "static-x" 5 =
      (.ok { success := true, tracks := [trackStaticXUnicode],
             matched_artists := ["Static‐X"] },
        [CatalogCall.serverSearch "static-x" 50,
          CatalogCall.sectionFilterArtist "Static‐X" 5]) :=
  (global_first_candidate srvStaticX msStaticXUnicode "static-x" 5).2
    [{ type := some "artist", title := "Static‐X" }] "Static‐X" []
    [trackStaticXUnicode] rfl (by decide) (by decide) (by decide)

/-! ## Normalizer lemmas for C4 and C9 -/

theorem nfkdTable_closed :
    ∀ p ∈ nfkdTable, ∀ d ∈ p.2, nfkdChar d = [d] := by decide

theorem nfkdChar_self {c : Char}
    (h : nfkdTable.find? (fun p => p.1 == c) = none) :
    nfkdChar c = [c] := by
  unfold nfkdChar
  rw [h]

theorem nfkdChar_fixed {c d : Char} (hd : d ∈ nfkdChar c) :
    nfkdChar d = [d] := by
  unfold nfkdChar at hd
  cases hfind : nfkdTable.find? (fun p => p.1 == c) with
  | none =>
    rw [hfind] at hd
    simp at hd
    subst hd
    exact nfkdChar_self hfind
  | some p =>
    rw [hfind] at hd
    exact nfkdTable_closed p (List.mem_of_find?_eq_some hfind) d hd

theorem nfkdList_fixed :
    ∀ l : List Char, (∀ c ∈ l, nfkdChar c = [c]) → nfkdList l = l := by
  intro l
  induction l with
  | nil => intro _; rfl
  | cons c cs ih =>
    intro h
    have hc := h c (by simp)
    have hcs := ih (fun d hd => h d (by simp [hd]))
    simp only [nfkdList, List.flatMap_cons] at *
    rw [hc, hcs]
    rfl

theorem nfkdList_mem_fixed {l : List Char} {d : Char}
    (hd : d ∈ nfkdList l) : nfkdChar d = [d] := by
  simp only [nfkdList, List.mem_flatMap] at hd
  obtain ⟨c, -, hdc⟩ := hd
  exact nfkdChar_fixed hdc

theorem foldl_replaceChar_eq_map (r : Char) :
    ∀ (ds : List Char) (l : List Char),
      ds.foldl (fun acc d => replaceChar d r acc) l =
        l.map (fun c => ds.foldl (fun x d => if x = d then r else x) c) := by
  intro ds
  induction ds with
  | nil => intro l; simp
  | cons d ds ih =>
    intro l
    simp only [List.foldl_cons]
    rw [ih (replaceChar d r l)]
    simp [replaceChar, List.map_map, Function.comp]

theorem replaceDashes_eq_map (l : List Char) :
    replaceDashes l = l.map dashCanon := by
  unfold replaceDashes dashCanon
  exact foldl_replaceChar_eq_map '-' dash_variants l

theorem replaceSpaces_eq_map (l : List Char) :
    replaceSpaces l = l.map spaceCanon := by
  unfold replaceSpaces spaceCanon
  exact foldl_replaceChar_eq_map ' ' space_variants l

theorem dashCanon_eq (c : Char) :
    dashCanon c = if c ∈ dash_variants then '-' else c := by
  by_cases h : c ∈ dash_variants
  · rw [if_pos h]
    fin_cases h <;> decide
  · rw [if_neg h]
    simp only [dash_variants, List.mem_cons, List.not_mem_nil,
      or_false] at h
    push_neg at h
    obtain ⟨h1, h2, h3, h4, h5, h6⟩ := h
    simp [dashCanon, dash_variants, h1, h2, h3, h4, h5, h6]

theorem spaceCanon_eq (c : Char) :
    spaceCanon c = if c ∈ space_variants then ' ' else c := by
  by_cases h : c ∈ space_variants
  · rw [if_pos h]
    fin_cases h <;> decide
  · rw [if_neg h]
    simp only [space_variants, List.mem_cons, List.not_mem_nil,
      or_false] at h
    push_neg at h
    obtain ⟨h1, h2, h3, h4, h5, h6, h7, h8, h9, h10, h11, h12⟩ := h
    simp [spaceCanon, space_variants, h1, h2, h3, h4, h5, h6, h7, h8, h9,
      h10, h11, h12]

theorem mem_replaceDashes {c : Char} {l : List Char}
    (h : c ∈ replaceDashes l) : c = '-' ∨ (c ∈ l ∧ c ∉ dash_variants) := by
  rw [replaceDashes_eq_map] at h
  simp only [List.mem_map] at h
  obtain ⟨a, ha, hac⟩ := h
  rw [dashCanon_eq] at hac
  by_cases hm : a ∈ dash_variants
  · rw [if_pos hm] at hac
    exact Or.inl hac.symm
  · rw [if_neg hm] at hac
    exact Or.inr (hac ▸ ⟨ha, hm⟩)

theorem mem_replaceSpaces {c : Char} {l : List Char}
    (h : c ∈ replaceSpaces l) :
    c = ' ' ∨ (c ∈ l ∧ c ∉ space_variants) := by
  rw [replaceSpaces_eq_map] at h
  simp only [List.mem_map] at h
  obtain ⟨a, ha, hac⟩ := h
  rw [spaceCanon_eq] at hac
  by_cases hm : a ∈ space_variants
  · rw [if_pos hm] at hac
    exact Or.inl hac.symm
  · rw [if_neg hm] at hac
    exact Or.inr (hac ▸ ⟨ha, hm⟩)

theorem replaceDashes_id {l : List Char}
    (h : ∀ c ∈ l, c ∉ dash_variants) : replaceDashes l = l := by
  rw [replaceDashes_eq_map]
  conv_rhs => rw [← List.map_id l]
  apply List.map_congr_left
  intro a ha
  rw [dashCanon_eq, if_neg (h a ha)]
  rfl

theorem replaceSpaces_id {l : List Char}
    (h : ∀ c ∈ l, c ∉ space_variants) : replaceSpaces l = l := by
  rw [replaceSpaces_eq_map]
  conv_rhs => rw [← List.map_id l]
  apply List.map_congr_left
  intro a ha
  rw [spaceCanon_eq, if_neg (h a ha)]
  rfl

theorem noDoubleSpace_tail {x : Char} {xs : List Char}
    (h : noDoubleSpace (x :: xs)) : noDoubleSpace xs := by
  cases xs with
  | nil => trivial
  | cons d ds => exact h.2

theorem noDoubleSpace_cons {c : Char} {l : List Char}
    (hl : noDoubleSpace l) (h : c ≠ ' ' ∨ l.head? ≠ some ' ') :
    noDoubleSpace (c :: l) := by
  cases l with
  | nil => trivial
  | cons d ds =>
    refine ⟨?_, hl⟩
    rintro ⟨hc, hd⟩
    rcases h with h | h
    · exact h hc
    · exact h (by simp [hd])

theorem mem_collapseWsAux :
    ∀ (l : List Char) (b : Bool) (c : Char),
      c ∈ collapseWsAux l b → c = ' ' ∨ (c ∈ l ∧ pyIsSpace c = false) := by
  intro l
  induction l with
  | nil => intro b c h; simp [collapseWsAux] at h
  | cons x xs ih =>
    intro b c h
    by_cases hx : pyIsSpace x
    · cases b with
      | true =>
        have hv : collapseWsAux (x :: xs) true = collapseWsAux xs true := by
          simp [collapseWsAux, hx]
        rw [hv] at h
        rcases ih true c h with h1 | h2
        · exact Or.inl h1
        · exact Or.inr ⟨List.mem_cons_of_mem x h2.1, h2.2⟩
      | false =>
        have hv : collapseWsAux (x :: xs) false =
            ' ' :: collapseWsAux xs true := by
          simp [collapseWsAux, hx]
        rw [hv] at h
        rcases List.mem_cons.mp h with h1 | h1
        · exact Or.inl h1
        · rcases ih true c h1 with h2 | h2
          · exact Or.inl h2
          · exact Or.inr ⟨List.mem_cons_of_mem x h2.1, h2.2⟩
    · have hv : collapseWsAux (x :: xs) b = x :: collapseWsAux xs false := by
        cases b <;> simp [collapseWsAux, hx]
      rw [hv] at h
      rcases List.mem_cons.mp h with h1 | h1
      · exact Or.inr ⟨h1 ▸ List.mem_cons_self x xs,
          h1 ▸ (Bool.not_eq_true _).mp hx⟩
      · rcases ih false c h1 with h2 | h2
        · exact Or.inl h2
        · exact Or.inr ⟨List.mem_cons_of_mem x h2.1, h2.2⟩

theorem collapseWsAux_shape :
    ∀ (l : List Char) (b : Bool),
      noDoubleSpace (collapseWsAux l b) ∧
        (b = true → (collapseWsAux l b).head? ≠ some ' ') := by
  intro l
  induction l with
  | nil =>
    intro b
    exact ⟨by simp [collapseWsAux, noDoubleSpace], fun _ => by
      simp [collapseWsAux]⟩
  | cons x xs ih =>
    intro b
    by_cases hx : pyIsSpace x
    · cases b with
      | true =>
        have hv : collapseWsAux (x :: xs) true = collapseWsAux xs true := by
          simp [collapseWsAux, hx]
        rw [hv]
        exact ⟨(ih true).1, fun _ => (ih true).2 rfl⟩
      | false =>
        have hv : collapseWsAux (x :: xs) false =
            ' ' :: collapseWsAux xs true := by
          simp [collapseWsAux, hx]
        rw [hv]
        constructor
        · exact noDoubleSpace_cons (ih true).1 (Or.inr ((ih true).2 rfl))
        · intro hb
          exact Bool.noConfusion hb
    · have hv : collapseWsAux (x :: xs) b = x :: collapseWsAux xs false := by
        cases b <;> simp [collapseWsAux, hx]
      rw [hv]
      have hxs : x ≠ ' ' := by
        intro hx'
        rw [hx'] at hx
        exact hx (by decide)
      constructor
      · exact noDoubleSpace_cons (ih false).1 (Or.inl hxs)
      · intro _
        simp [hxs]

theorem collapseWsAux_id :
    ∀ (l : List Char) (b : Bool),
      (∀ c ∈ l, pyIsSpace c = true → c = ' ') →
      noDoubleSpace l →
      (b = true → l.head? ≠ some ' ') →
      collapseWsAux l b = l := by
  intro l
  induction l with
  | nil => intro b _ _ _; rfl
  | cons x xs ih =>
    intro b hall hnd hhead
    by_cases hx : pyIsSpace x
    · have hx' : x = ' ' := hall x (by simp) hx
      subst hx'
      cases b with
      | true => exact absurd rfl (hhead rfl)
      | false =>
        have hv : collapseWsAux (' ' :: xs) false =
            ' ' :: collapseWsAux xs true := by
          simp [collapseWsAux, hx]
        rw [hv]
        congr 1
        apply ih true
        · intro c hc hcs
          exact hall c (List.mem_cons_of_mem _ hc) hcs
        · exact noDoubleSpace_tail hnd
        · intro _
          cases xs with
          | nil => simp
          | cons d ds =>
            have hd : ¬(' ' = ' ' ∧ d = ' ') := hnd.1
            simp only [true_and] at hd
            simp [hd]
    · have hv : collapseWsAux (x :: xs) b = x :: collapseWsAux xs false := by
        cases b <;> simp [collapseWsAux, hx]
      rw [hv]
      congr 1
      apply ih false
      · intro c hc hcs
        exact hall c (List.mem_cons_of_mem _ hc) hcs
      · exact noDoubleSpace_tail hnd
      · intro hb
        exact Bool.noConfusion hb

theorem mem_dropWhileWs :
    ∀ {l : List Char} {c : Char}, c ∈ l.dropWhile pyIsSpace → c ∈ l := by
  intro l
  induction l with
  | nil => intro c h; simpa using h
  | cons x xs ih =>
    intro c h
    rw [List.dropWhile_cons] at h
    by_cases hx : pyIsSpace x
    · simp only [hx, if_true] at h
      exact List.mem_cons_of_mem x (ih h)
    · simp only [hx, if_false] at h
      simpa using h

theorem noLeadSpace_dropWhileWs (l : List Char) :
    noLeadSpace (l.dropWhile pyIsSpace) := by
  induction l with
  | nil => trivial
  | cons x xs ih =>
    rw [List.dropWhile_cons]
    by_cases hx : pyIsSpace x
    · simpa [hx] using ih
    · simpa [hx, noLeadSpace] using (Bool.not_eq_true _).mp hx

theorem noDoubleSpace_dropWhileWs {l : List Char}
    (hl : noDoubleSpace l) : noDoubleSpace (l.dropWhile pyIsSpace) := by
  induction l with
  | nil => trivial
  | cons x xs ih =>
    rw [List.dropWhile_cons]
    by_cases hx : pyIsSpace x
    · simpa [hx] using ih (noDoubleSpace_tail hl)
    · simpa [hx] using hl

theorem dropWhileWs_id {l : List Char} (hl : noLeadSpace l) :
    l.dropWhile pyIsSpace = l := by
  cases l with
  | nil => rfl
  | cons x xs =>
    rw [List.dropWhile_cons]
    have hx : pyIsSpace x = false := hl
    simp [hx]

theorem mem_dropTrailWs :
    ∀ {l : List Char} {c : Char}, c ∈ dropTrailWs l → c ∈ l := by
  intro l
  induction l with
  | nil => intro c h; simpa [dropTrailWs] using h
  | cons x xs ih =>
    intro c h
    rw [dropTrailWs] at h
    cases hd : dropTrailWs xs with
    | nil =>
      rw [hd] at h
      by_cases hx : pyIsSpace x
      · simp [hx] at h
      · simp [hx] at h
        simp [h]
    | cons y ys =>
      rw [hd] at h
      rcases List.mem_cons.mp h with h1 | h1
      · simp [h1]
      · exact List.mem_cons_of_mem x (ih (hd ▸ h1))

theorem dropTrailWs_head? :
    ∀ l : List Char, dropTrailWs l = [] ∨
      (dropTrailWs l).head? = l.head? := by
  intro l
  cases l with
  | nil => exact Or.inl rfl
  | cons x xs =>
    rw [dropTrailWs]
    cases hd : dropTrailWs xs with
    | nil =>
      by_cases hx : pyIsSpace x
      · simp [hx]
      · simp [hx]
    | cons y ys => simp

theorem noDoubleSpace_dropTrailWs :
    ∀ {l : List Char}, noDoubleSpace l → noDoubleSpace (dropTrailWs l) := by
  intro l
  induction l with
  | nil => intro _; trivial
  | cons x xs ih =>
    intro hl
    rw [dropTrailWs]
    cases hd : dropTrailWs xs with
    | nil =>
      by_cases hx : pyIsSpace x
      · simp only [hx, if_true]
        trivial
      · simp only [hx, if_false]
        trivial
    | cons y ys =>
      have htail : noDoubleSpace (y :: ys) := hd ▸ ih (noDoubleSpace_tail hl)
      apply noDoubleSpace_cons htail
      cases xs with
      | nil => simp [dropTrailWs] at hd
      | cons z zs =>
        rcases dropTrailWs_head? (z :: zs) with h0 | h0
        · rw [h0] at hd
          exact absurd hd (by simp)
        · rw [hd] at h0
          simp only [List.head?_cons, Option.some.injEq] at h0
          subst h0
          by_cases hy : y = ' '
          · left
            intro hx'
            exact hl.1 ⟨hx', hy⟩
          · right
            simp [hy]

theorem noTrailSpace_dropTrailWs : ∀ l : List Char,
    noTrailSpace (dropTrailWs l) := by
  intro l
  induction l with
  | nil => trivial
  | cons x xs ih =>
    rw [dropTrailWs]
    cases hd : dropTrailWs xs with
    | nil =>
      by_cases hx : pyIsSpace x
      · simp only [hx, if_true]
        trivial
      · simp only [hx, if_false]
        exact (Bool.not_eq_true _).mp hx
    | cons y ys =>
      show noTrailSpace (y :: ys)
      exact hd ▸ ih

theorem dropTrailWs_id :
    ∀ {l : List Char}, noTrailSpace l → dropTrailWs l = l := by
  intro l
  induction l with
  | nil => intro _; rfl
  | cons x xs ih =>
    intro hl
    cases xs with
    | nil =>
      have hx : pyIsSpace x = false := hl
      rw [dropTrailWs]
      simp [dropTrailWs, hx]
    | cons z zs =>
      have htail : noTrailSpace (z :: zs) := hl
      have hxs := ih htail
      rw [dropTrailWs, hxs]

theorem noLeadSpace_dropTrailWs {l : List Char} (h : noLeadSpace l) :
    noLeadSpace (dropTrailWs l) := by
  rcases dropTrailWs_head? l with h0 | h0
  · rw [h0]
    trivial
  · cases hval : dropTrailWs l with
    | nil => trivial
    | cons y ys =>
      cases l with
      | nil => simp [dropTrailWs] at hval
      | cons z zs =>
        rw [hval] at h0
        simp only [List.head?_cons, Option.some.injEq] at h0
        show pyIsSpace y = false
        rw [h0]
        exact h

/-- Every output of the normalizer pipeline on a character list has
the normalized shape: all its characters are fixed points of every
stage, it has no double spaces, and it neither starts nor ends with
whitespace. -/
theorem charFixed_space : charFixed ' ' := by
  refine ⟨by decide, by decide, by decide, fun _ => rfl⟩

theorem charFixed_hyphen : charFixed '-' := by
  refine ⟨by decide, by decide, by decide, ?_⟩
  intro habs
  exact absurd habs (by decide)

/-- Stripping after collapsing yields the normalized shape as soon as
every non-whitespace character of the input is stage-fixed. -/
theorem strip_collapse_shape (sp : List Char)
    (hsp : ∀ c ∈ sp, pyIsSpace c = false → charFixed c) :
    NormalizedShape (stripWs (collapseWs sp)) := by
  refine ⟨?_, ?_, ?_, ?_⟩
  · intro c hc
    have hc1 : c ∈ collapseWs sp := mem_dropWhileWs (mem_dropTrailWs hc)
    rcases mem_collapseWsAux _ false c hc1 with h1 | ⟨h2, hps⟩
    · subst h1
      exact charFixed_space
    · exact hsp c h2 hps
  · exact noDoubleSpace_dropTrailWs
      (noDoubleSpace_dropWhileWs (collapseWsAux_shape _ false).1)
  · exact noLeadSpace_dropTrailWs (noLeadSpace_dropWhileWs _)
  · exact noTrailSpace_dropTrailWs _

/-- Every output of the normalizer has the normalized shape. -/
theorem normalize_shape (name : String) :
    NormalizedShape (normalize_artist_name name).data := by
  simp only [normalize_artist_name]
  apply strip_collapse_shape
  intro c h2 hps
  rcases mem_replaceSpaces h2 with h3 | ⟨h4, hsv⟩
  · subst h3
    exact charFixed_space
  · rcases mem_replaceDashes h4 with h5 | ⟨h6, hdv⟩
    · subst h5
      exact charFixed_hyphen
    · refine ⟨nfkdList_mem_fixed h6, hdv, hsv, ?_⟩
      intro habs
      rw [habs] at hps
      exact Bool.noConfusion hps

/-- A string of normalized shape is a fixed point of the normalizer. -/
theorem normalize_fixed {s : String} (h : NormalizedShape s.data) :
    normalize_artist_name s = s := by
  obtain ⟨hall, hnd, hlead, htrail⟩ := h
  have h1 : nfkdList s.data = s.data :=
    nfkdList_fixed s.data (fun c hc => (hall c hc).1)
  have h2 : replaceDashes s.data = s.data :=
    replaceDashes_id (fun c hc => (hall c hc).2.1)
  have h3 : replaceSpaces s.data = s.data :=
    replaceSpaces_id (fun c hc => (hall c hc).2.2.1)
  have h4 : collapseWs s.data = s.data :=
    collapseWsAux_id s.data false (fun c hc => (hall c hc).2.2.2) hnd
      (fun hb => Bool.noConfusion hb)
  have h5 : stripWs s.data = s.data := by
    unfold stripWs
    rw [dropWhileWs_id hlead, dropTrailWs_id htrail]
  simp only [normalize_artist_name, h1, h2, h3, h4, h5]

/-! ## C4: the normalizer is idempotent -/

/-- C4: normalize_artist_name is idempotent: applying it twice gives
the same string as applying it once, for every input string. As a Lean
function of its argument it is by construction a pure, deterministic
function of its input. -/
theorem normalize_artist_name_idempotent (s : String) :
    normalize_artist_name (normalize_artist_name s) =
      normalize_artist_name s :=
  normalize_fixed (normalize_shape s)

/-! ## C9: dash canonicalization -/

/-- C9: the dash-replacement stage of normalize_artist_name rewrites
each occurrence of each of the six dash-like code points U+2010,
U+2013, U+2014, U+2212, U+2012, U+2015 to the ASCII hyphen, no dash
variant ever survives into the output of normalize_artist_name, and
for each dash variant d the name Static d X normalizes to Static-X. -/
theorem normalize_dash_canonicalization :
    (∀ l : List Char, replaceDashes l =
      l.map (fun c => if c ∈ dash_variants then '-' else c)) ∧
    (∀ (s : String), ∀ c ∈ (normalize_artist_name s).data,
      c ∉ dash_variants) ∧
    (∀ d ∈ dash_variants,
      normalize_artist_name ("Static".push d ++ "X") = "Static-X") := by
  refine ⟨?_, ?_, ?_⟩
  · intro l
    rw [replaceDashes_eq_map]
    apply List.map_congr_left
    intro a _
    rw [dashCanon_eq]
  · intro s c hc
    exact ((normalize_shape s).1 c hc).2.1
  · intro d hd
    fin_cases hd <;> decide

/-- Witness for C9: the en dash U+2013 in Static-X is canonicalized to
the ASCII hyphen. -/
theorem normalize_dash_canonicalization_witness :
    normalize_artist_name ("Static".push '–' ++ "X") = "Static-X" :=
  normalize_dash_canonicalization.2.2 '–' (by decide)

/-! ## C5: the matched artists of the fuzzy strategy -/

/-- Counterexample to C5 as stated: the fuzzy loop collects the
matched artists in a Python set, and an admissible iteration order of
that set (here: the reverse of the insertion history, which is a
permutation of it and therefore a possible list(set) outcome under hash
randomization) makes matched_artists differ from the first-occurrence
insertion order of the retained attributions. -/
theorem fuzzy_insertion_order_counterexample :
    List.Perm (revSetList ["QUEEN", "queen"]) ["QUEEN", "queen"] ∧
    FuzzySearchStrategy.search_tracks revSetList msFuzzyQueen "Queen" 5 =
      (.ok { success := true,
             tracks := [trackQueenUpper, trackQueenLower],
             matched_artists := ["queen", "QUEEN"] },
        [CatalogCall.sectionTitle "Queen" 5]) ∧
    FuzzySearchStrategy.dedupFirst
        ([trackQueenUpper, trackQueenLower].map
          FuzzySearchStrategy.trackArtist) = ["QUEEN", "queen"] ∧
    ["queen", "QUEEN"] ≠ ["QUEEN", "queen"] := by
  refine ⟨by decide, by decide, by decide, by decide⟩

/-- C5 amended: for every catalog response to the fuzzy title probe,
matched_artists contains exactly the distinct associated-artist values
of the retained tracks, without duplicates, as a permutation of the
first-occurrence list; the order in which they are listed is the
iteration order of the Python set and is not specified. -/
theorem fuzzy_matched_artists_distinct
    (setList : List String → List String) (music_section : MusicSection)
    (artist : String) (limit : Nat) (r : SearchResult)
    (calls : List CatalogCall) (hset : ValidSetList setList)
    (h : FuzzySearchStrategy.search_tracks setList music_section artist
        limit = (.ok r, calls))
    (hs : r.success = true) :
    List.Perm r.matched_artists
      (FuzzySearchStrategy.dedupFirst
        (r.tracks.map FuzzySearchStrategy.trackArtist)) ∧
    r.matched_artists.Nodup := by
  obtain ⟨tracks, -, -, -, hma⟩ :=
    FuzzySearchStrategy.search_tracks_ok_shape setList music_section
      artist limit r calls h hs
  rw [hma]
  have hn := FuzzySearchStrategy.dedupFirst_nodup
    (r.tracks.map FuzzySearchStrategy.trackArtist)
  have hperm := hset _ hn
  exact ⟨hperm, hperm.nodup_iff.mpr hn⟩

/-- Witness for the amended C5 on the concrete fuzzy catalog, with the
reversing enumeration. -/
theorem fuzzy_matched_artists_distinct_witness :
    List.Perm ["queen", "QUEEN"]
      (FuzzySearchStrategy.dedupFirst
        ([trackQueenUpper, trackQueenLower].map
          FuzzySearchStrategy.trackArtist)) ∧
    (["queen", "QUEEN"] : List String).Nodup :=
  fuzzy_matched_artists_distinct revSetList msFuzzyQueen "Queen" 5
    { success := true, tracks := [trackQueenUpper, trackQueenLower],
      matched_artists := ["queen", "QUEEN"] }
    [CatalogCall.sectionTitle "Queen" 5] valid_revSetList (by decide) rfl

end PlexMcp
